import Mathlib

/-!
# Verification of the HTML table parser / result writer of projetoIESI

This development is a shallow embedding of the core logic of
`src/backend/main.py` (the copy under `src/src/src/backend/main.py`):

* the field normalizer `_norm` (in `update_experiment_results`) and the
  identical inline key derivation in the two parsers;
* the HTML table field parsers of `get_template_for_tipo` (rows need at
  least 3 `<td>` cells, plus a non-empty-key check) and of
  `get_experiment_body` (rows need at least 2 `<td>` cells, no key check),
  including the `_clean_text` sanitizer and the placeholder fallback of
  `get_template_for_tipo`;
* the result writer of `update_experiment_results` (lookup of a new value
  by exact / normalized / case-insensitive key, in-place replacement of
  the second `<td>` of each matching row, flat `"key: value"` fallback).

HTML documents are embedded as a forest of DOM nodes (the state the Python
code manipulates through BeautifulSoup after parsing); `str(soup)` is
embedded as `renderL`.  BeautifulSoup's in-place mutation of the second
`<td>` of a row is embedded as a functional update along the path of that
cell.  Python's `str.lower` is embedded by `Char.toLower` (basic-latin
case folding; the labels and denylist entries exercised here only use
upper-case basic-latin letters, where the two agree).
-/

/-- `a <= c <= z` or `0 <= c <= 9`: the character class `[a-z0-9]` of the
regular expressions `re.sub(r"[^a-z0-9]+", "_", ...)` in the source. -/
def isLN (c : Char) : Bool :=
  (97 ≤ c.toNat && c.toNat ≤ 122) || (48 ≤ c.toNat && c.toNat ≤ 57)

/-- Python `str.lower()` on one character (basic-latin folding). -/
def pyLowerC (c : Char) : Char := c.toLower

/-- Python `str.lower()` on a character list. -/
def pyLowerL (l : List Char) : List Char := l.map pyLowerC

/-- Python `str.lower()`. -/
def pyLowerS (s : String) : String := ⟨pyLowerL s.data⟩

/-- Python `str.strip()` on a character list: remove leading and trailing
whitespace. -/
def pyStripL (l : List Char) : List Char :=
  ((l.dropWhile Char.isWhitespace).reverse.dropWhile Char.isWhitespace).reverse

/-- Python `str.strip()`. -/
def pyStripS (s : String) : String := ⟨pyStripL s.data⟩

/-- Python `str.strip("_")` on a character list. -/
def stripUnderL (l : List Char) : List Char :=
  ((l.dropWhile (· == '_')).reverse.dropWhile (· == '_')).reverse

/-- `re.sub(r"[^a-z0-9]+", "_", l)`: replace every maximal run of
characters outside `[a-z0-9]` by a single underscore.  The flag records
whether we are inside such a run. -/
def collapseRuns : Bool → List Char → List Char
  | _, [] => []
  | inRun, c :: rest =>
    if isLN c then c :: collapseRuns false rest
    else if inRun then collapseRuns true rest
    else '_' :: collapseRuns true rest

/-- The key normalizer `_norm` of `update_experiment_results`
(`re.sub(r"[^a-z0-9]+", "_", (s or "").strip().lower()).strip("_")`),
which is also, verbatim, the inline key derivation of
`get_template_for_tipo` and `get_experiment_body`
(`re.sub(r"[^a-z0-9]+", "_", param.strip().lower()).strip("_")`). -/
def pynorm (s : String) : String :=
  ⟨stripUnderL (collapseRuns false (pyLowerL (pyStripL s.data)))⟩

/-- The head of a character list is in `[a-z0-9]` (vacuously true when
empty). -/
def headLN : List Char → Bool
  | [] => true
  | c :: _ => isLN c

/-- `re.sub(r"<[^>]+>", "", l)` of `_clean_text`, driven by a character
budget: remove every maximal `<`...`>` tag-shaped span (at least one
character between the brackets); unmatched `<` survives.  Every step
consumes at least one character, so a budget of `l.length` (as
`stripTagsL` supplies) never runs out. -/
def stripTagsF : Nat → List Char → List Char
  | _, [] => []
  | 0, l => l
  | fuel + 1, c :: rest =>
    if c = '<' then
      match rest.dropWhile (fun d => d != '>') with
      | [] => c :: stripTagsF fuel rest
      | _ :: tail =>
        if (rest.takeWhile (fun d => d != '>')).isEmpty then
          c :: stripTagsF fuel rest
        else stripTagsF fuel tail
    else c :: stripTagsF fuel rest

/-- `re.sub(r"<[^>]+>", "", l)` of `_clean_text`. -/
def stripTagsL (l : List Char) : List Char := stripTagsF l.length l

/-- Does `pat` occur at the head of `hay`? -/
def leadEq : List Char → List Char → Bool
  | [], _ => true
  | _ :: _, [] => false
  | p :: ps, h :: hs => p == h && leadEq ps hs

/-- Python `pat in hay` substring test on character lists. -/
def containsSubL (pat : List Char) : List Char → Bool
  | [] => leadEq pat []
  | c :: t => leadEq pat (c :: t) || containsSubL pat t

/-- `'style=' in node_text.lower()` of `_clean_text`. -/
def hasStyle (s : String) : Bool :=
  containsSubL "style=".data (pyLowerL s.data)

/-- `re.sub(r"<[^>]+>", "", node_text).strip()` of `_clean_text`. -/
def cleanedOf (s : String) : String := ⟨pyStripL (stripTagsL s.data)⟩

/-- The `_clean_text` sanitizer of `get_template_for_tipo` and
`get_experiment_body`: empty input stays empty; otherwise tags are
stripped and the result trimmed; if the stripped text still contains `<`
or `>`, or the input text contains `style=` (case-insensitively), the
empty string is substituted. -/
def cleanText (s : String) : String :=
  if s = "" then ""
  else
    let cleaned := cleanedOf s
    if cleaned.data.contains '<' || cleaned.data.contains '>' || hasStyle s
    then ""
    else cleaned

/-- `re.findall(r"\{\{\s*([^\}]+?)\s*\}\}", body)` of the placeholder
fallback in `get_template_for_tipo`: scan for `{{`; the characters up to
the first `}` form the span between the braces, and a second `}` must
follow immediately.  A non-empty span yields its trimmed text as the
capture — except that an all-whitespace span yields its last whitespace
character, as the lazy group must still consume one `[^}]` character.  On
failure the scan resumes one position later, on success after the closing
braces.  One capture is produced per occurrence.  The scan is driven by a
character budget; every step consumes at least one character, so a budget
of `l.length` (as `findPh` supplies) never runs out. -/
def findPhF : Nat → List Char → List String
  | _, [] => []
  | 0, _ => []
  | fuel + 1, '\x7b' :: '\x7b' :: rest =>
    (match rest.dropWhile (fun d => d != '\x7d') with
     | _ :: '\x7d' :: rest2 =>
       let seg := rest.takeWhile (fun d => d != '\x7d')
       if seg.isEmpty then findPhF fuel ('\x7b' :: rest)
       else
         let cap := if (pyStripL seg).isEmpty then [seg.getLastD ' ']
           else pyStripL seg
         (⟨cap⟩ : String) :: findPhF fuel rest2
     | _ => findPhF fuel ('\x7b' :: rest))
  | fuel + 1, _ :: rest => findPhF fuel rest

/-- `re.findall(r"\{\{\s*([^\}]+?)\s*\}\}", body)`, see `findPhF`. -/
def findPh (l : List Char) : List String := findPhF l.length l

/-- A DOM node as BeautifulSoup's `html.parser` produces it: a text node
(NavigableString) or an element with a tag name, attributes and children.
An HTML document body is the forest of the soup's top-level nodes. -/
inductive Node where
  | text : String → Node
  | elem : String → List (String × String) → List Node → Node

/-- One structured field as returned by the parsing endpoints
(`{"key": ..., "label": ..., "unit": ..., "reference": ...,
"observation": ..., "value": ...}`). -/
structure FieldRec where
  key : String
  label : String
  unit : String
  reference : String
  observation : String
  value : String
deriving DecidableEq, Repr

mutual
/-- All text-node contents of a subtree in document order
(BeautifulSoup's `.strings`). -/
def strsN : Node → List String
  | .text s => [s]
  | .elem _ _ c => strsL c
/-- `strsN` over a forest. -/
def strsL : List Node → List String
  | [] => []
  | n :: ns => strsN n ++ strsL ns
end

/-- `node.get_text(separator=' ', strip=True)`: every descendant string is
stripped, blank ones are skipped, the rest are joined with one space. -/
def getTextSep (n : Node) : String :=
  String.intercalate " " (((strsN n).map pyStripS).filter (fun s => s ≠ ""))

/-- Is this node a `<tr>` element? -/
def isTrN : Node → Bool
  | .elem t _ _ => t == "tr"
  | .text _ => false

/-- Is this node a `<td>` element? -/
def isTdN : Node → Bool
  | .elem t _ _ => t == "td"
  | .text _ => false

mutual
/-- This node (if a `<tr>`) and all its descendant `<tr>` elements in
document order. -/
def selfTrs : Node → List Node
  | .text _ => []
  | .elem t a c => (if t == "tr" then [Node.elem t a c] else []) ++ selfTrsL c
/-- `selfTrs` over a forest: `find_all("tr")` of a parent of the forest. -/
def selfTrsL : List Node → List Node
  | [] => []
  | n :: ns => selfTrs n ++ selfTrsL ns
end

/-- `table.find_all("tr")`: all descendant `<tr>` elements. -/
def subTrsOf : Node → List Node
  | .text _ => []
  | .elem _ _ c => selfTrsL c

mutual
/-- The first `<table>` element in pre-order, this node included
(`soup.find("table")` restricted to a subtree). -/
def firstTableN : Node → Option Node
  | .text _ => none
  | .elem t a c => if t == "table" then some (.elem t a c) else firstTableL c
/-- `soup.find("table")` over the document forest. -/
def firstTableL : List Node → Option Node
  | [] => none
  | n :: ns =>
    match firstTableN n with
    | some t => some t
    | none => firstTableL ns
end

mutual
/-- Paths (child-index sequences) of all descendant `<td>` elements of a
node, in document order (`tr.find_all("td")`, as positions). -/
def tdPathsN : Node → List (List Nat)
  | .text _ => []
  | .elem _ _ c => tdPathsL 0 c
/-- `tdPathsN` over a forest, starting at child index `i`. -/
def tdPathsL : Nat → List Node → List (List Nat)
  | _, [] => []
  | i, n :: ns =>
    (if isTdN n then [[i]] else []) ++ (tdPathsN n).map (i :: ·)
      ++ tdPathsL (i + 1) ns
end

mutual
/-- The subtree of a node at a child-index path. -/
def getAt : Node → List Nat → Option Node
  | n, [] => some n
  | .text _, _ :: _ => none
  | .elem _ _ c, i :: p => getAtL c i p
/-- Walk to the `i`-th node of a forest, then follow the rest of the
path. -/
def getAtL : List Node → Nat → List Nat → Option Node
  | [], _, _ => none
  | m :: _, 0, p => getAt m p
  | _ :: ms, i + 1, p => getAtL ms i p
end

/-- `tds[i].get_text(separator=' ', strip=True)` for the `i`-th descendant
`<td>` of a row; empty string when there is no such cell (the
`if len(tds) > i else ""` guards in the source). -/
def cellRaw (tr : Node) (i : Nat) : String :=
  match (tdPathsN tr).get? i with
  | none => ""
  | some p =>
    match getAt tr p with
    | none => ""
    | some n => getTextSep n

/-- The header denylist `("parâmetro", "resultado", "hemograma",
"série branca")` of both parsers. -/
def denylist : List String := ["parâmetro", "resultado", "hemograma", "série branca"]

/-- The sanitized first-column text of a row (`param` in the source). -/
def rowParam (tr : Node) : String := cleanText (cellRaw tr 0)

/-- `low_param = (param or "").strip().lower()`. -/
def rowLow (tr : Node) : String := pyLowerS (pyStripS (rowParam tr))

/-- One row of the `get_experiment_body` parser: rows need at least two
`<td>` cells; the sanitized label must be non-empty and off the denylist;
no constraint on the derived key. -/
def rowFieldBody (tr : Node) : Option FieldRec :=
  if (tdPathsN tr).length < 2 then none
  else
    let param := rowParam tr
    if param = "" ∨ rowLow tr ∈ denylist then none
    else
      some ⟨pynorm param, param, cleanText (cellRaw tr 2),
        cleanText (cellRaw tr 3), cleanText (cellRaw tr 4),
        cleanText (cellRaw tr 1)⟩

/-- One row of the `get_template_for_tipo` parser: rows need at least
three `<td>` cells, the same label filters, and additionally a non-empty
derived key (`if key:` in the source). -/
def rowFieldTemplate (tr : Node) : Option FieldRec :=
  if (tdPathsN tr).length < 3 then none
  else
    let param := rowParam tr
    if param = "" ∨ rowLow tr ∈ denylist then none
    else
      let key := pynorm param
      if key = "" then none
      else
        some ⟨key, param, cleanText (cellRaw tr 2),
          cleanText (cellRaw tr 3), cleanText (cellRaw tr 4),
          cleanText (cellRaw tr 1)⟩

/-- The field list of `get_experiment_body`: the rows of the first table,
in order; no table means no fields.  (The source guards with
`"<table" in body.lower()` before parsing; a rendered document contains a
table element exactly when that guard can fire, so the guard is embedded
as the `firstTableL` test.) -/
def bodyFields (doc : List Node) : List FieldRec :=
  match firstTableL doc with
  | some t => (subTrsOf t).filterMap rowFieldBody
  | none => []

/-- The table-derived field list of `get_template_for_tipo`. -/
def templateTableFields (doc : List Node) : List FieldRec :=
  match firstTableL doc with
  | some t => (subTrsOf t).filterMap rowFieldTemplate
  | none => []

/-- The placeholder fallback of `get_template_for_tipo`: one field per
regex match (`label = ph.strip()`, same key derivation, everything else
empty). -/
def placeholderFields (body : String) : List FieldRec :=
  (findPh body.data).map (fun ph => ⟨pynorm ph, pyStripS ph, "", "", "", ""⟩)

/-- HTML-escape one character the way a text node is re-serialized. -/
def escapeC (c : Char) : List Char :=
  if c = '&' then "&amp;".data
  else if c = '<' then "&lt;".data
  else if c = '>' then "&gt;".data
  else [c]

/-- Escaping inside a double-quoted attribute value. -/
def escAttrC (c : Char) : List Char :=
  if c = '"' then "&quot;".data else escapeC c

/-- Serialize an attribute list as ` key="value"...`. -/
def renderAttrs : List (String × String) → String
  | [] => ""
  | (k, v) :: rest =>
    " " ++ k ++ "=\"" ++ (⟨(v.data.map escAttrC).flatten⟩ : String) ++ "\""
      ++ renderAttrs rest

mutual
/-- `str(node)`: re-serialize a DOM subtree. -/
def renderN : Node → String
  | .text s => ⟨(s.data.map escapeC).flatten⟩
  | .elem t a c => "<" ++ t ++ renderAttrs a ++ ">" ++ renderL c ++ "</" ++ t ++ ">"
/-- `str(soup)`: re-serialize the document forest. -/
def renderL : List Node → String
  | [] => ""
  | n :: ns => renderN n ++ renderL ns
end

/-- The full field list of `get_template_for_tipo`: table rows if any,
otherwise the placeholder fallback applied to the raw body string. -/
def templateFields (doc : List Node) : List FieldRec :=
  let tf := templateTableFields doc
  if tf.isEmpty then placeholderFields (renderL doc) else tf

/-- Python `str(value)` for the JSON values of the `results` payload: the
patch is modeled as an association list in dict iteration order, values
either `None` (`none`) or a value whose `str()` is the carried string. -/
def pyStr : Option String → String
  | none => "None"
  | some s => s

/-- Lookup in a Python dict built by a comprehension `{f(k): v for k, v in
results.items()}`: on duplicate derived keys the last binding wins. -/
def lookupLast (l : List (String × Option String)) (k : String) :
    Option (Option String) :=
  match l with
  | [] => none
  | kv :: rest =>
    match lookupLast rest k with
    | some v => some v
    | none => if kv.1 == k then some kv.2 else none

/-- The case-insensitive fallback loop of `update_experiment_results`:
first key whose stripped lower-case form equals that of the row label. -/
def firstCI (results : List (String × Option String)) (raw : String) :
    Option (Option String) :=
  (results.find? (fun kv => pyLowerS (pyStripS kv.1) == pyLowerS (pyStripS raw))).map
    (fun kv => kv.2)

/-- `new_value` of `update_experiment_results` for a row label `raw`:
exact match against stripped keys (`provided_by_label`), then normalized
match (`provided_by_norm`), then the case-insensitive loop.  The result is
the Python value found (possibly `None`); no match at all is also `none`. -/
def newValueFor (results : List (String × Option String)) (raw : String) :
    Option String :=
  match lookupLast (results.map (fun kv => (pyStripS kv.1, kv.2))) raw with
  | some v => v
  | none =>
    match lookupLast (results.map (fun kv => (pynorm kv.1, kv.2))) (pynorm raw) with
    | some v => v
    | none =>
      match firstCI results raw with
      | some v => v
      | none => none

/-- Does any of the three lookup channels of `update_experiment_results`
match the row label at all? -/
def anyChannelMatch (results : List (String × Option String)) (raw : String) :
    Bool :=
  (lookupLast (results.map (fun kv => (pyStripS kv.1, kv.2))) raw).isSome
  || (lookupLast (results.map (fun kv => (pynorm kv.1, kv.2))) (pynorm raw)).isSome
  || (firstCI results raw).isSome

/-- The decision for one row: the path of the second `<td>` and the string
to write, when the row has at least two cells and `new_value is not None`. -/
def rowDecision (results : List (String × Option String)) (tr : Node) :
    Option (List Nat × String) :=
  match (tdPathsN tr).get? 1 with
  | none => none
  | some p1 =>
    match newValueFor results (cellRaw tr 0) with
    | some v => some (p1, v)
    | none => none

/-- `tds[1].clear(); tds[1].append(str(new_value))`: same element and
attributes, children replaced by one text node. -/
def clearTd (v : String) : Node → Node
  | .elem t a _ => .elem t a [.text v]
  | .text s => .text s

mutual
/-- Process every `<tr>` of a subtree the way the writer's row loop does:
on a row with a decision, replace the second `<td>` along its path;
elsewhere recurse.  (The source iterates a pre-computed `find_all("tr")`
snapshot and mutates in place; this functional form agrees with it
whenever no `<td>` of a row sits inside a nested `<tr>`, which the
simple-row hypotheses of the theorems below guarantee.) -/
def updateTrsN (results : List (String × Option String)) : Node → Node
  | .text s => .text s
  | .elem t a c =>
    if t == "tr" then
      match rowDecision results (Node.elem t a c) with
      | some (i :: rest, v) => .elem t a (updateRowChildren results i rest v c)
      | _ => .elem t a (updateTrsL results c)
    else .elem t a (updateTrsL results c)
/-- `updateTrsN` over a forest. -/
def updateTrsL (results : List (String × Option String)) : List Node → List Node
  | [] => []
  | n :: ns => updateTrsN results n :: updateTrsL results ns
/-- Walk the path of the cell to replace; children off the path are still
searched for rows. -/
def updateRowChildren (results : List (String × Option String)) :
    Nat → List Nat → String → List Node → List Node
  | _, _, _, [] => []
  | 0, rest, v, n :: ns =>
    (match rest with
     | [] => clearTd v n
     | j :: rest2 =>
       match n with
       | .text s => .text s
       | .elem t a cc => .elem t a (updateRowChildren results j rest2 v cc))
      :: updateTrsL results ns
  | i + 1, rest, v, n :: ns =>
    updateTrsN results n :: updateRowChildren results i rest v ns
end

mutual
/-- Find the first `<table>` and update its rows; the flag reports whether
a table was found (`table = soup.find("table"); if table: ...`). -/
def mftN (results : List (String × Option String)) : Node → Node × Bool
  | .text s => (.text s, false)
  | .elem t a c =>
    if t == "table" then (.elem t a (updateTrsL results c), true)
    else
      let r := mftL results c
      (.elem t a r.1, r.2)
/-- `mftN` over the document forest. -/
def mftL (results : List (String × Option String)) : List Node → List Node × Bool
  | [] => ([], false)
  | n :: ns =>
    let r := mftN results n
    if r.2 then (r.1 :: ns, true)
    else
      let r2 := mftL results ns
      (n :: r2.1, r2.2)
end

/-- The updated document AST of `update_experiment_results`. -/
def applyAst (doc : List Node) (results : List (String × Option String)) :
    List Node :=
  (mftL results doc).1

/-- The flat `"key: value"` fallback body, one line per patch entry in
iteration order. -/
def flatFallback (results : List (String × Option String)) : String :=
  String.intercalate "\n" (results.map (fun kv => kv.1 ++ ": " ++ pyStr kv.2))

/-- `updated_body` as finally written by `update_experiment_results`: the
re-serialized document when a table was found and re-serialization is
non-empty (`if not updated_body:` treats `""` as missing), the flat
fallback otherwise.  (As in `bodyFields`, the `"<table" in body.lower()`
guard is embedded as the table search itself.) -/
def applyResults (doc : List Node) (results : List (String × Option String)) :
    String :=
  if (mftL results doc).2 then
    let s := renderL (mftL results doc).1
    if s = "" then flatFallback results else s
  else flatFallback results

mutual
/-- No `<tr>` element anywhere in the subtree, the node included. -/
def trFreeN : Node → Bool
  | .text _ => true
  | .elem t _ c => t != "tr" && trFreeL c
/-- `trFreeN` over a forest. -/
def trFreeL : List Node → Bool
  | [] => true
  | n :: ns => trFreeN n && trFreeL ns
end

mutual
/-- No `<tr>` and no `<td>` element anywhere in the subtree. -/
def noTrTdN : Node → Bool
  | .text _ => true
  | .elem t _ c => t != "tr" && t != "td" && noTrTdL c
/-- `noTrTdN` over a forest. -/
def noTrTdL : List Node → Bool
  | [] => true
  | n :: ns => noTrTdN n && noTrTdL ns
end

/-- The children of a simple row: `<td>` cells whose contents contain no
nested `<tr>`/`<td>`, and non-cell children free of `<tr>`/`<td>`. -/
def simpleCellL : List Node → Bool
  | [] => true
  | .text _ :: ns => simpleCellL ns
  | .elem t a cc :: ns =>
    (if t == "td" then noTrTdL cc else noTrTdN (.elem t a cc)) && simpleCellL ns

/-- A `<tr>` whose cells are direct children with flat contents. -/
def isSimpleRow : Node → Bool
  | .elem t _ c => t == "tr" && simpleCellL c
  | .text _ => false

/-- Child indices of the direct `<td>` children, as singleton paths. -/
def dIdx : Nat → List Node → List (List Nat)
  | _, [] => []
  | i, n :: ns => (if isTdN n then [[i]] else []) ++ dIdx (i + 1) ns

/-- The first table with the writer's row loop applied to it. -/
def updTable (results : List (String × Option String)) : Node → Node
  | .text s => .text s
  | .elem t a c => .elem t a (updateTrsL results c)

/-- A one-row demonstration table body:
`<table><tr><td>Glicose</td><td></td></tr></table>`. -/
def demoRow : Node :=
  Node.elem "tr" [] [Node.elem "td" [] [Node.text "Glicose"], Node.elem "td" [] []]

/-- The table around `demoRow`. -/
def demoTable : Node := Node.elem "table" [] [demoRow]

/-- The document holding `demoTable`. -/
def demoDoc : List Node := [demoTable]

/-- A row whose first cell is a styled span:
`<tr><td><span style="color:red">x</span></td><td>1</td></tr>`. -/
def styledRow : Node :=
  Node.elem "tr" []
    [Node.elem "td" [] [Node.elem "span" [("style", "color:red")] [Node.text "x"]],
     Node.elem "td" [] [Node.text "1"]]

/-- The document holding `styledRow` inside a table. -/
def styledDoc : List Node := [Node.elem "table" [] [styledRow]]

/-- A table-free body with a twice-occurring placeholder token:
`<p>x {{dup}} {{dup}}</p>`. -/
def dupDoc : List Node :=
  [Node.elem "p" [] [Node.text "x \x7b\x7bdup\x7d\x7d \x7b\x7bdup\x7d\x7d"]]

-- ### Facts about the normalizer

theorem isLN_not_underscore {c : Char} (h : isLN c = true) : c ≠ '_' := by
  intro hc; subst hc; simp [isLN] at h

theorem isLN_toLower {c : Char} (h : isLN c = true) : c.toLower = c := by
  simp only [isLN, Bool.or_eq_true, Bool.and_eq_true, decide_eq_true_eq] at h
  unfold Char.toLower
  have : ¬(c.toNat ≥ 65 ∧ c.toNat ≤ 90) := by omega
  simp [this]

theorem isLN_not_whitespace {c : Char} (h : isLN c = true) :
    c.isWhitespace = false := by
  simp only [isLN, Bool.or_eq_true, Bool.and_eq_true, decide_eq_true_eq] at h
  simp only [Char.isWhitespace]
  have h9 : c ≠ '\t' := by rintro rfl; revert h; decide
  have hs : c ≠ ' ' := by rintro rfl; revert h; decide
  have hn : c ≠ '\n' := by rintro rfl; revert h; decide
  have hr : c ≠ '\r' := by rintro rfl; revert h; decide
  simp [hs, h9, hn, hr]

theorem underscore_not_whitespace : ('_' : Char).isWhitespace = false := by
  decide

/-- Every character produced by `collapseRuns` is `[a-z0-9]` or `_`. -/
theorem collapseRuns_chars (b : Bool) (l : List Char) :
    ∀ c ∈ collapseRuns b l, isLN c = true ∨ c = '_' := by
  induction l generalizing b with
  | nil => intro c hc; simp [collapseRuns] at hc
  | cons d rest ih =>
    intro c hc
    by_cases hd : isLN d = true
    · rw [collapseRuns, if_pos hd] at hc
      rcases List.mem_cons.mp hc with hc | hc
      · subst hc; exact Or.inl hd
      · exact ih false c hc
    · rw [collapseRuns, if_neg hd] at hc
      cases b with
      | true =>
        rw [if_pos rfl] at hc
        exact ih true c hc
      | false =>
        rw [if_neg (by simp)] at hc
        rcases List.mem_cons.mp hc with hc | hc
        · exact Or.inr hc
        · exact ih true c hc

/-- In run mode, `collapseRuns` skips to the next `[a-z0-9]` character, so
the head of its output (if any) is in `[a-z0-9]`. -/
theorem collapseRuns_true_head (l : List Char) (c : Char) (L : List Char)
    (h : collapseRuns true l = c :: L) : isLN c = true := by
  induction l with
  | nil => simp [collapseRuns] at h
  | cons d rest ih =>
    by_cases hd : isLN d = true
    · rw [collapseRuns, if_pos hd] at h
      cases h; exact hd
    · rw [collapseRuns, if_neg hd, if_pos rfl] at h
      exact ih h

/-- Every underscore emitted by `collapseRuns` is followed by an
`[a-z0-9]` character. -/
theorem collapseRuns_chain (b : Bool) (l : List Char) :
    List.Chain' (fun a b' => a = '_' → isLN b' = true) (collapseRuns b l) := by
  induction l generalizing b with
  | nil => simp [collapseRuns]
  | cons d rest ih =>
    by_cases hd : isLN d = true
    · rw [collapseRuns, if_pos hd]
      refine List.chain'_cons'.mpr ⟨?_, ih false⟩
      intro y _ hy
      exact absurd hy (isLN_not_underscore hd)
    · rw [collapseRuns, if_neg hd]
      cases b with
      | true => rw [if_pos rfl]; exact ih true
      | false =>
        rw [if_neg (by simp)]
        refine List.chain'_cons'.mpr ⟨?_, ih true⟩
        intro y hy _
        cases hmem : collapseRuns true rest with
        | nil => rw [hmem] at hy; simp at hy
        | cons z zs =>
          rw [hmem] at hy
          simp only [List.head?_cons, Option.mem_some_iff] at hy
          exact hy ▸ collapseRuns_true_head rest z zs hmem

/-- On a list whose underscores are each followed by an `[a-z0-9]`
character and whose characters are all `[a-z0-9]` or `_`, `collapseRuns`
is the identity. -/
theorem collapseRuns_fix (l : List Char)
    (hok : ∀ c ∈ l, isLN c = true ∨ c = '_')
    (hch : List.Chain' (fun a b' => a = '_' → isLN b' = true) l) :
    collapseRuns false l = l ∧ (headLN l = true → collapseRuns true l = l) := by
  induction l with
  | nil => exact ⟨rfl, fun _ => rfl⟩
  | cons c L ih =>
    have hokL : ∀ d ∈ L, isLN d = true ∨ d = '_' :=
      fun d hd => hok d (List.mem_cons_of_mem c hd)
    have hchL : List.Chain' (fun a b' => a = '_' → isLN b' = true) L :=
      (List.chain'_cons'.mp hch).2
    rcases hok c (List.mem_cons_self c L) with hc | hc
    · have hIH := (ih hokL hchL).1
      constructor
      · rw [collapseRuns, if_pos hc, hIH]
      · intro _; rw [collapseRuns, if_pos hc, hIH]
    · subst hc
      have hLN : ¬ isLN '_' = true := by decide
      have hheadL : headLN L = true := by
        cases L with
        | nil => rfl
        | cons d L' =>
          have := (List.chain'_cons'.mp hch).1 d (by simp) rfl
          simpa [headLN] using this
      have hIH := (ih hokL hchL).2 hheadL
      constructor
      · rw [collapseRuns, if_neg hLN, if_neg (by simp), hIH]
      · intro hc
        simp [headLN] at hc
        exact absurd hc hLN

/-- `dropWhile` does nothing when no element satisfies the predicate. -/
theorem dropWhile_eq_self_of_forall (p : Char → Bool) (l : List Char)
    (h : ∀ c ∈ l, p c = false) : l.dropWhile p = l := by
  cases l with
  | nil => rfl
  | cons c t =>
    rw [List.dropWhile_cons, h c (List.mem_cons_self c t)]
    simp

/-- If `dropWhile` returns a cons, the head fails the predicate. -/
theorem dropWhile_head_false (p : Char → Bool) (l : List Char) (c : Char)
    (t : List Char) (h : l.dropWhile p = c :: t) : p c = false := by
  have h2 := List.head?_dropWhile_not p l
  rw [h] at h2
  simpa using h2

/-- `dropWhile` is idempotent. -/
theorem dropWhile_idem_char (p : Char → Bool) (l : List Char) :
    (l.dropWhile p).dropWhile p = l.dropWhile p := by
  cases hdw : l.dropWhile p with
  | nil => rfl
  | cons c t =>
    rw [List.dropWhile_cons, dropWhile_head_false p l c t hdw]
    simp

/-- `stripUnderL l` is a prefix of `l.dropWhile (· == '_')`. -/
theorem stripUnder_pref (l : List Char) :
    stripUnderL l <+: l.dropWhile (· == '_') := by
  have h : ((l.dropWhile (· == '_')).reverse.dropWhile (· == '_'))
      <:+ (l.dropWhile (· == '_')).reverse :=
    List.dropWhile_suffix _
  have h2 := List.reverse_prefix.mpr h
  simpa [stripUnderL] using h2

/-- `stripUnderL l` is a contiguous part of `l`. -/
theorem stripUnder_inside (l : List Char) : stripUnderL l <:+: l :=
  List.IsInfix.trans (List.IsPrefix.isInfix (stripUnder_pref l))
    (List.IsSuffix.isInfix (List.dropWhile_suffix _))

/-- The front of `stripUnderL l` carries no underscore. -/
theorem stripUnder_front (l : List Char) :
    (stripUnderL l).dropWhile (· == '_') = stripUnderL l := by
  cases hsu : stripUnderL l with
  | nil => rfl
  | cons c t =>
    have hpref : (c :: t) <+: l.dropWhile (· == '_') := hsu ▸ stripUnder_pref l
    obtain ⟨u, hu⟩ := hpref
    have hc : (c == '_') = false :=
      dropWhile_head_false _ l c (t ++ u) (by rw [← hu]; rfl)
    rw [List.dropWhile_cons, hc]
    simp

/-- The back of `stripUnderL l` carries no underscore. -/
theorem stripUnder_back (l : List Char) :
    (stripUnderL l).reverse.dropWhile (· == '_') = (stripUnderL l).reverse := by
  have hrev : (stripUnderL l).reverse
      = ((l.dropWhile (· == '_')).reverse).dropWhile (· == '_') := by
    unfold stripUnderL
    simp
  rw [hrev, dropWhile_idem_char]

/-- `stripUnderL` is idempotent. -/
theorem stripUnder_idem (l : List Char) :
    stripUnderL (stripUnderL l) = stripUnderL l := by
  show ((((stripUnderL l).dropWhile (· == '_')).reverse.dropWhile (· == '_'))).reverse
      = stripUnderL l
  rw [stripUnder_front, stripUnder_back]
  simp

/-- A map that fixes every element of a list fixes the list. -/
theorem map_fix_of_forall (f : Char → Char) (l : List Char)
    (h : ∀ c ∈ l, f c = c) : l.map f = l := by
  induction l with
  | nil => rfl
  | cons c t ih =>
    rw [List.map_cons, h c (List.mem_cons_self c t),
      ih (fun d hd => h d (List.mem_cons_of_mem c hd))]

/-- The output of the `pynorm` pipeline is a fixed point of the whole
pipeline. -/
theorem pynorm_fixpoint (l : List Char) :
    stripUnderL (collapseRuns false (pyLowerL (pyStripL
      (stripUnderL (collapseRuns false (pyLowerL (pyStripL l)))))))
    = stripUnderL (collapseRuns false (pyLowerL (pyStripL l))) := by
  set r := stripUnderL (collapseRuns false (pyLowerL (pyStripL l))) with hr
  have hok : ∀ c ∈ r, isLN c = true ∨ c = '_' := fun c hc =>
    collapseRuns_chars false _ c ((stripUnder_inside _).subset hc)
  have hch : List.Chain' (fun a b' => a = '_' → isLN b' = true) r :=
    List.Chain'.infix (collapseRuns_chain false _) (stripUnder_inside _)
  have hnws : ∀ c ∈ r, c.isWhitespace = false := by
    intro c hc
    rcases hok c hc with h | h
    · exact isLN_not_whitespace h
    · subst h; exact underscore_not_whitespace
  have hstrip : pyStripL r = r := by
    unfold pyStripL
    rw [dropWhile_eq_self_of_forall _ _ hnws,
      dropWhile_eq_self_of_forall _ _
        (fun c hc => hnws c (List.mem_reverse.mp hc)),
      List.reverse_reverse]
  have hlower : pyLowerL r = r := by
    unfold pyLowerL
    apply map_fix_of_forall
    intro c hc
    rcases hok c hc with h | h
    · exact isLN_toLower h
    · subst h; rfl
  have hcollapse : collapseRuns false r = r := (collapseRuns_fix r hok hch).1
  have hsu : stripUnderL r = r := by rw [hr]; exact stripUnder_idem _
  rw [hstrip, hlower, hcollapse, hsu]

-- ### Structural lemmas about the DOM embedding

mutual
/-- A subtree without `<tr>` elements contributes no rows. -/
theorem trFreeN_selfTrs : (n : Node) → trFreeN n = true → selfTrs n = []
  | .text _, _ => rfl
  | .elem t a c, h => by
    have h' : (t != "tr") = true ∧ trFreeL c = true := by
      simpa [trFreeN] using h
    have ht : ¬ (t == "tr") = true := by
      simpa using h'.1
    simp [selfTrs, ht, trFreeL_selfTrsL c h'.2]
/-- A forest without `<tr>` elements contributes no rows. -/
theorem trFreeL_selfTrsL : (l : List Node) → trFreeL l = true → selfTrsL l = []
  | [], _ => rfl
  | n :: ns, h => by
    have h' : trFreeN n = true ∧ trFreeL ns = true := by
      simpa [trFreeL] using h
    simp [selfTrsL, trFreeN_selfTrs n h'.1, trFreeL_selfTrsL ns h'.2]
end

mutual
/-- The writer leaves a `<tr>`-free subtree unchanged. -/
theorem updateTrsN_trFree (results : List (String × Option String)) :
    (n : Node) → trFreeN n = true → updateTrsN results n = n
  | .text _, _ => rfl
  | .elem t a c, h => by
    have h' : (t != "tr") = true ∧ trFreeL c = true := by
      simpa [trFreeN] using h
    have ht : ¬ (t == "tr") = true := by
      simpa using h'.1
    simp [updateTrsN, ht, updateTrsL_trFree results c h'.2]
/-- The writer leaves a `<tr>`-free forest unchanged. -/
theorem updateTrsL_trFree (results : List (String × Option String)) :
    (l : List Node) → trFreeL l = true → updateTrsL results l = l
  | [], _ => rfl
  | n :: ns, h => by
    have h' : trFreeN n = true ∧ trFreeL ns = true := by
      simpa [trFreeL] using h
    simp [updateTrsL, updateTrsN_trFree results n h'.1,
      updateTrsL_trFree results ns h'.2]
end

mutual
/-- `<tr>`/`<td>`-free subtrees are in particular `<tr>`-free. -/
theorem noTrTdN_trFree : (n : Node) → noTrTdN n = true → trFreeN n = true
  | .text _, _ => rfl
  | .elem t a c, h => by
    have h' : (¬ t = "tr" ∧ ¬ t = "td") ∧ noTrTdL c = true := by
      simpa [noTrTdN] using h
    simp [trFreeN, h'.1.1, noTrTdL_trFreeL c h'.2]
/-- `noTrTdN_trFree` over a forest. -/
theorem noTrTdL_trFreeL : (l : List Node) → noTrTdL l = true → trFreeL l = true
  | [], _ => rfl
  | n :: ns, h => by
    have h' : noTrTdN n = true ∧ noTrTdL ns = true := by
      simpa [noTrTdL] using h
    simp [trFreeL, noTrTdN_trFree n h'.1, noTrTdL_trFreeL ns h'.2]
end

mutual
/-- `<tr>`/`<td>`-free subtrees contain no cell paths. -/
theorem noTrTdN_tdPaths : (n : Node) → noTrTdN n = true → tdPathsN n = []
  | .text _, _ => rfl
  | .elem t a c, h => by
    have h' : (¬ t = "tr" ∧ ¬ t = "td") ∧ noTrTdL c = true := by
      simpa [noTrTdN] using h
    simpa [tdPathsN] using noTrTdL_tdPathsL c h'.2 0
/-- `noTrTdN_tdPaths` over a forest, at any starting index. -/
theorem noTrTdL_tdPathsL : (l : List Node) → noTrTdL l = true →
    ∀ i, tdPathsL i l = []
  | [], _, _ => rfl
  | n :: ns, h, i => by
    have h' : noTrTdN n = true ∧ noTrTdL ns = true := by
      simpa [noTrTdL] using h
    have htd : isTdN n = false := by
      cases n with
      | text s => rfl
      | elem t a c =>
        have h2 : (¬ t = "tr" ∧ ¬ t = "td") ∧ noTrTdL c = true := by
          simpa [noTrTdN] using h'.1
        simp [isTdN, h2.1.2]
    simp [tdPathsL, htd, noTrTdN_tdPaths n h'.1, noTrTdL_tdPathsL ns h'.2 (i + 1)]
end

mutual
/-- The writer's found-a-table flag agrees with the table search. -/
theorem mftN_found (results : List (String × Option String)) :
    (n : Node) → (mftN results n).2 = (firstTableN n).isSome
  | .text _ => rfl
  | .elem t a c => by
    by_cases ht : (t == "table") = true
    · simp [mftN, firstTableN, ht]
    · simp [mftN, firstTableN, ht, mftL_found results c]
/-- `mftN_found` over the document forest. -/
theorem mftL_found (results : List (String × Option String)) :
    (l : List Node) → (mftL results l).2 = (firstTableL l).isSome
  | [] => rfl
  | n :: ns => by
    have hn := mftN_found results n
    by_cases h2 : (mftN results n).2 = true
    · rw [hn] at h2
      obtain ⟨t, ht⟩ := Option.isSome_iff_exists.mp h2
      simp [mftL, firstTableL, hn, ht]
    · have h2' : (mftN results n).2 = false := by
        simpa using h2
      rw [hn] at h2'
      have ht : firstTableN n = none := by
        simpa [Option.isSome_iff_exists] using Option.not_isSome_iff_eq_none.mp
          (by simp [h2'])
      simp [mftL, firstTableL, hn, ht, mftL_found results ns]
end

mutual
/-- Without a table, the writer's traversal changes nothing. -/
theorem mftN_nf (results : List (String × Option String)) :
    (n : Node) → firstTableN n = none → (mftN results n).1 = n
  | .text _, _ => rfl
  | .elem t a c, h => by
    by_cases ht : (t == "table") = true
    · simp [firstTableN, ht] at h
    · have hc : firstTableL c = none := by
        simpa [firstTableN, ht] using h
      simp [mftN, ht, mftL_nf results c hc]
/-- `mftN_nf` over the document forest. -/
theorem mftL_nf (results : List (String × Option String)) :
    (l : List Node) → firstTableL l = none → (mftL results l).1 = l
  | [], _ => rfl
  | n :: ns, h => by
    have hn : firstTableN n = none := by
      cases hfn : firstTableN n with
      | none => rfl
      | some t => rw [firstTableL, hfn] at h; exact absurd h (by simp)
    have hns : firstTableL ns = none := by
      rw [firstTableL, hn] at h; exact h
    have hflag : (mftN results n).2 = false := by
      rw [mftN_found results n, hn]; rfl
    simp [mftL, hflag, mftL_nf results ns hns]
end

mutual
/-- Any found table is a `<table>` element. -/
theorem firstTableN_shape : (n : Node) → (t : Node) → firstTableN n = some t →
    ∃ a c, t = Node.elem "table" a c
  | .text _, t, h => by simp [firstTableN] at h
  | .elem tg a c, t, h => by
    by_cases ht : (tg == "table") = true
    · have htg : tg = "table" := by simpa using ht
      rw [firstTableN, if_pos ht] at h
      exact ⟨a, c, by simp at h; rw [← h, htg]⟩
    · rw [firstTableN, if_neg ht] at h
      exact firstTableL_shape c t h
/-- `firstTableN_shape` over the document forest. -/
theorem firstTableL_shape : (l : List Node) → (t : Node) → firstTableL l = some t →
    ∃ a c, t = Node.elem "table" a c
  | [], t, h => by simp [firstTableL] at h
  | n :: ns, t, h => by
    cases hfn : firstTableN n with
    | some t0 =>
      rw [firstTableL, hfn] at h
      simp at h
      exact h ▸ firstTableN_shape n t0 hfn
    | none =>
      rw [firstTableL, hfn] at h
      exact firstTableL_shape ns t h
end

mutual
/-- The writer transforms exactly the first table: searching the updated
document finds that table with the row loop applied. -/
theorem mftN_first (results : List (String × Option String)) :
    (n : Node) → (t : Node) → firstTableN n = some t →
    firstTableN (mftN results n).1 = some (updTable results t)
  | .text _, t, h => by simp [firstTableN] at h
  | .elem tg a c, t, h => by
    by_cases ht : (tg == "table") = true
    · rw [firstTableN, if_pos ht] at h
      simp at h
      rw [mftN, if_pos ht]
      simp [firstTableN, ht, ← h, updTable]
    · rw [firstTableN, if_neg ht] at h
      rw [mftN, if_neg ht]
      simpa [firstTableN, ht] using mftL_first results c t h
/-- `mftN_first` over the document forest. -/
theorem mftL_first (results : List (String × Option String)) :
    (l : List Node) → (t : Node) → firstTableL l = some t →
    firstTableL (mftL results l).1 = some (updTable results t)
  | [], t, h => by simp [firstTableL] at h
  | n :: ns, t, h => by
    cases hfn : firstTableN n with
    | some t0 =>
      rw [firstTableL, hfn] at h
      simp at h
      subst h
      have hflag : (mftN results n).2 = true := by
        rw [mftN_found results n, hfn]; rfl
      have hupd := mftN_first results n t0 hfn
      simp [mftL, hflag, firstTableL, hupd]
    | none =>
      rw [firstTableL, hfn] at h
      have hflag : (mftN results n).2 = false := by
        rw [mftN_found results n, hfn]; rfl
      have hid : (mftN results n).1 = n := mftN_nf results n hfn
      simp [mftL, hflag, firstTableL, hid, hfn, mftL_first results ns t h]
end

/-- Replacing a cell along a path keeps a row's children `<tr>`-free. -/
theorem urc_trFree (results : List (String × Option String)) :
    (i : Nat) → (rest : List Nat) → (v : String) → (c : List Node) →
    trFreeL c = true → trFreeL (updateRowChildren results i rest v c) = true
  | _, _, _, [], _ => by simp [updateRowChildren, trFreeL]
  | 0, [], v, n :: ns, h => by
    have h' : trFreeN n = true ∧ trFreeL ns = true := by
      simpa [trFreeL] using h
    have hclear : trFreeN (clearTd v n) = true := by
      cases n with
      | text s => rfl
      | elem t a cc =>
        have h2 : (t != "tr") = true ∧ trFreeL cc = true := by
          simpa [trFreeN] using h'.1
        simp [clearTd, trFreeN, trFreeL, h2.1]
    simp [updateRowChildren, trFreeL, hclear,
      updateTrsL_trFree results ns h'.2, h'.2]
  | 0, j :: rest2, v, Node.text s :: ns, h => by
    have h' : trFreeN (Node.text s) = true ∧ trFreeL ns = true := by
      simpa [trFreeL] using h
    simp [updateRowChildren, trFreeL, trFreeN,
      updateTrsL_trFree results ns h'.2, h'.2]
  | 0, j :: rest2, v, Node.elem t a cc :: ns, h => by
    have h' : ((t != "tr") = true ∧ trFreeL cc = true) ∧ trFreeL ns = true := by
      simpa [trFreeL, trFreeN] using h
    have hrec := urc_trFree results j rest2 v cc h'.1.2
    simp [updateRowChildren, trFreeL, trFreeN, h'.1.1, hrec,
      updateTrsL_trFree results ns h'.2, h'.2]
  | Nat.succ i, rest, v, n :: ns, h => by
    have h' : trFreeN n = true ∧ trFreeL ns = true := by
      simpa [trFreeL] using h
    simp [updateRowChildren, trFreeL, updateTrsN_trFree results n h'.1, h'.1,
      urc_trFree results i rest v ns h'.2]

/-- The children of a simple row are `<tr>`-free. -/
theorem simpleCellL_trFreeL : (l : List Node) → simpleCellL l = true →
    trFreeL l = true
  | [], _ => rfl
  | .text s :: ns, h => by
    have h' : simpleCellL ns = true := by simpa [simpleCellL] using h
    simp [trFreeL, trFreeN, simpleCellL_trFreeL ns h']
  | .elem t a cc :: ns, h => by
    have h' : (if (t == "td") = true then noTrTdL cc
        else noTrTdN (Node.elem t a cc)) = true ∧ simpleCellL ns = true := by
      simpa [simpleCellL] using h
    have hns := simpleCellL_trFreeL ns h'.2
    by_cases htd : (t == "td") = true
    · have hcc : noTrTdL cc = true := by
        have := h'.1
        rwa [if_pos htd] at this
      have ht : t = "td" := by simpa using htd
      simp [trFreeL, trFreeN, ht, noTrTdL_trFreeL cc hcc, hns]
    · have hcc : noTrTdN (Node.elem t a cc) = true := by
        have := h'.1
        rwa [if_neg htd] at this
      simp [trFreeL, noTrTdN_trFree _ hcc, hns]

mutual
/-- Under simple rows, the writer's traversal acts on the row list of a
subtree as the per-row map. -/
theorem selfTrs_update (results : List (String × Option String)) :
    (n : Node) → (selfTrs n).all isSimpleRow = true →
    selfTrs (updateTrsN results n) = (selfTrs n).map (updateTrsN results)
  | .text s, _ => rfl
  | .elem t a c, h => by
    by_cases ht : (t == "tr") = true
    · have hsimp : isSimpleRow (Node.elem t a c) = true := by
        have hm : Node.elem t a c ∈ selfTrs (Node.elem t a c) := by
          simp [selfTrs, ht]
        exact List.all_eq_true.mp h _ hm
      have hsc : simpleCellL c = true := by
        simpa [isSimpleRow, ht] using hsimp
      have htf : trFreeL c = true := simpleCellL_trFreeL c hsc
      have hst : selfTrsL c = [] := trFreeL_selfTrsL c htf
      have hres : ∃ c', updateTrsN results (Node.elem t a c) = Node.elem t a c'
          ∧ trFreeL c' = true := by
        cases hdec : rowDecision results (Node.elem t a c) with
        | none =>
          refine ⟨updateTrsL results c, by simp [updateTrsN, ht, hdec], ?_⟩
          rw [updateTrsL_trFree results c htf]
          exact htf
        | some pv =>
          obtain ⟨p, v⟩ := pv
          cases p with
          | nil =>
            refine ⟨updateTrsL results c, by simp [updateTrsN, ht, hdec], ?_⟩
            rw [updateTrsL_trFree results c htf]
            exact htf
          | cons i rest =>
            exact ⟨updateRowChildren results i rest v c,
              by simp [updateTrsN, ht, hdec],
              urc_trFree results i rest v c htf⟩
      obtain ⟨c', heq, htf'⟩ := hres
      rw [heq]
      simp [selfTrs, ht, hst, trFreeL_selfTrsL c' htf', heq]
    · have hsel : selfTrs (Node.elem t a c) = selfTrsL c := by
        simp [selfTrs, ht]
      rw [hsel] at h
      have hupd : updateTrsN results (Node.elem t a c)
          = Node.elem t a (updateTrsL results c) := by
        simp [updateTrsN, ht]
      rw [hupd]
      simp [selfTrs, ht, hsel, selfTrsL_update results c h]
/-- `selfTrs_update` over a forest. -/
theorem selfTrsL_update (results : List (String × Option String)) :
    (l : List Node) → (selfTrsL l).all isSimpleRow = true →
    selfTrsL (updateTrsL results l) = (selfTrsL l).map (updateTrsN results)
  | [], _ => rfl
  | n :: ns, h => by
    have h' : (selfTrs n).all isSimpleRow = true
        ∧ (selfTrsL ns).all isSimpleRow = true := by
      have := h
      rw [selfTrsL, List.all_append] at this
      exact ⟨(Bool.and_eq_true _ _).mp this |>.1,
        (Bool.and_eq_true _ _).mp this |>.2⟩
    simp [selfTrsL, updateTrsL, selfTrs_update results n h'.1,
      selfTrsL_update results ns h'.2]
end

/-- In a simple row the cell paths are exactly the direct `<td>` child
indices. -/
theorem tdPathsL_simple : (c : List Node) → simpleCellL c = true →
    ∀ i, tdPathsL i c = dIdx i c
  | [], _, _ => rfl
  | .text s :: ns, h, i => by
    have h' : simpleCellL ns = true := by simpa [simpleCellL] using h
    simp [tdPathsL, dIdx, isTdN, tdPathsN, tdPathsL_simple ns h' (i + 1)]
  | .elem t a cc :: ns, h, i => by
    have h' : (if (t == "td") = true then noTrTdL cc
        else noTrTdN (Node.elem t a cc)) = true ∧ simpleCellL ns = true := by
      simpa [simpleCellL] using h
    have hns := tdPathsL_simple ns h'.2 (i + 1)
    by_cases htd : (t == "td") = true
    · have hcc : noTrTdL cc = true := by
        have := h'.1
        rwa [if_pos htd] at this
      simp [tdPathsL, dIdx, isTdN, htd, tdPathsN,
        noTrTdL_tdPathsL cc hcc 0, hns]
    · have hcc : noTrTdN (Node.elem t a cc) = true := by
        have := h'.1
        rwa [if_neg htd] at this
      simp [tdPathsL, dIdx, isTdN, htd, noTrTdN_tdPaths _ hcc, hns]

/-- On a `<tr>`-free child list, replacing the cell at a direct index is a
plain list update. -/
theorem urc_set (results : List (String × Option String)) (v : String) :
    (j : Nat) → (c : List Node) → (n : Node) → trFreeL c = true →
    c.get? j = some n →
    updateRowChildren results j [] v c = c.set j (clearTd v n)
  | j, [], n, _, hget => by simp at hget
  | 0, m :: ns, n, h, hget => by
    have h' : trFreeN m = true ∧ trFreeL ns = true := by
      simpa [trFreeL] using h
    have hm : m = n := by simpa using hget
    subst hm
    simp [updateRowChildren, updateTrsL_trFree results ns h'.2, List.set]
  | Nat.succ j, m :: ns, n, h, hget => by
    have h' : trFreeN m = true ∧ trFreeL ns = true := by
      simpa [trFreeL] using h
    have hget' : ns.get? j = some n := by simpa using hget
    simp [updateRowChildren, updateTrsN_trFree results m h'.1, List.set,
      urc_set results v j ns n h'.2 hget']

/-- Every entry of `dIdx i c` is a singleton index of a direct `<td>`
child at or after position `i`. -/
theorem dIdx_mem : (c : List Node) → (i : Nat) → ∀ p ∈ dIdx i c,
    ∃ j, p = [j] ∧ i ≤ j ∧ ∃ n, c.get? (j - i) = some n ∧ isTdN n = true
  | [], i, p, hp => by simp [dIdx] at hp
  | m :: ns, i, p, hp => by
    by_cases htd : isTdN m = true
    · rw [dIdx, if_pos htd] at hp
      rcases List.mem_cons.mp (by simpa using hp) with hp | hp
      · exact ⟨i, hp, Nat.le_refl i, m, by simp, htd⟩
      · obtain ⟨j, hpj, hij, n, hget, htdn⟩ := dIdx_mem ns (i + 1) p hp
        refine ⟨j, hpj, by omega, n, ?_, htdn⟩
        have hsub : j - i = (j - (i + 1)) + 1 := by omega
        rw [hsub]
        simpa using hget
    · rw [dIdx, if_neg htd] at hp
      simp at hp
      obtain ⟨j, hpj, hij, n, hget, htdn⟩ := dIdx_mem ns (i + 1) p hp
      refine ⟨j, hpj, by omega, n, ?_, htdn⟩
      have hsub : j - i = (j - (i + 1)) + 1 := by omega
      rw [hsub]
      simpa using hget

/-- The head index of `dIdx` is strictly below every later index. -/
theorem dIdx_head_lt : (c : List Node) → (i : Nat) → ∀ p rest,
    dIdx i c = p :: rest →
    ∃ j, p = [j] ∧ i ≤ j ∧ ∀ q ∈ rest, ∃ b, q = [b] ∧ j < b
  | [], i, p, rest, h => by simp [dIdx] at h
  | m :: ns, i, p, rest, h => by
    by_cases htd : isTdN m = true
    · rw [dIdx, if_pos htd] at h
      simp at h
      refine ⟨i, h.1.symm, Nat.le_refl i, ?_⟩
      intro q hq
      rw [← h.2] at hq
      obtain ⟨b, hqb, hib, _⟩ := dIdx_mem ns (i + 1) q hq
      exact ⟨b, hqb, by omega⟩
    · rw [dIdx, if_neg htd] at h
      simp at h
      obtain ⟨j, hpj, hij, hrest⟩ := dIdx_head_lt ns (i + 1) p rest h
      exact ⟨j, hpj, by omega, hrest⟩

/-- `dIdx` only looks at which children are `<td>` elements. -/
theorem dIdx_set : (c : List Node) → (i k : Nat) → (m n : Node) →
    c.get? k = some n → isTdN m = isTdN n → dIdx i (c.set k m) = dIdx i c
  | [], i, k, m, n, hget, _ => by simp at hget
  | x :: ns, i, 0, m, n, hget, htd => by
    have hx : x = n := by simpa using hget
    subst hx
    simp [List.set, dIdx, htd]
  | x :: ns, i, Nat.succ k, m, n, hget, htd => by
    have hget' : ns.get? k = some n := by simpa using hget
    simp [List.set, dIdx, dIdx_set ns (i + 1) k m n hget' htd]

/-- Replacing a `<td>` child by its cleared form keeps a row simple. -/
theorem simpleCellL_set (v : String) :
    (c : List Node) → (k : Nat) → (n : Node) → simpleCellL c = true →
    c.get? k = some n → isTdN n = true →
    simpleCellL (c.set k (clearTd v n)) = true
  | [], k, n, _, hget, _ => by simp at hget
  | x :: ns, 0, n, h, hget, htd => by
    have hx : x = n := by simpa using hget
    rw [← hx] at htd
    rw [show (x :: ns).set 0 (clearTd v n) = clearTd v x :: ns by rw [← hx]; rfl]
    cases x with
    | text s => simp [isTdN] at htd
    | elem t a cc =>
      have ht : (t == "td") = true := by simpa [isTdN] using htd
      have h' : simpleCellL ns = true := by
        have h2 : (if (t == "td") = true then noTrTdL cc
            else noTrTdN (Node.elem t a cc)) = true ∧ simpleCellL ns = true := by
          simpa [simpleCellL] using h
        exact h2.2
      simp [clearTd, simpleCellL, ht, noTrTdL, noTrTdN, h']
  | x :: ns, Nat.succ k, n, h, hget, htd => by
    have hget' : ns.get? k = some n := by simpa using hget
    cases x with
    | text s =>
      have h' : simpleCellL ns = true := by simpa [simpleCellL] using h
      simp [List.set, simpleCellL, simpleCellL_set v ns k n h' hget' htd]
    | elem t a cc =>
      have h' : (if (t == "td") = true then noTrTdL cc
          else noTrTdN (Node.elem t a cc)) = true ∧ simpleCellL ns = true := by
        simpa [simpleCellL] using h
      have htail := simpleCellL_set v ns k n h'.2 hget' htd
      by_cases ht2 : (t == "td") = true
      · have hcc : noTrTdL cc = true := by
          have := h'.1
          rwa [if_pos ht2] at this
        simp [List.set, simpleCellL, ht2, hcc, htail]
      · have hcc : noTrTdN (Node.elem t a cc) = true := by
          have := h'.1
          rwa [if_neg ht2] at this
        simp [List.set, simpleCellL, ht2, hcc, htail]

/-- Clearing a cell does not change whether it is a `<td>`. -/
theorem clearTd_isTd (v : String) : (n : Node) → isTdN (clearTd v n) = isTdN n
  | .text _ => rfl
  | .elem _ _ _ => rfl

/-- Walking a one-step path lands on the indexed child. -/
theorem getAtL_single : (c : List Node) → (i : Nat) →
    getAtL c i [] = c.get? i
  | [], 0 => rfl
  | [], _ + 1 => rfl
  | m :: ms, 0 => by simp [getAtL, getAt]
  | m :: ms, i + 1 => by
    rw [getAtL, getAtL_single ms i]
    rfl

/-- A singleton path addresses a direct child. -/
theorem getAt_single (t : String) (a : List (String × String)) (c : List Node)
    (i : Nat) : getAt (Node.elem t a c) [i] = c.get? i := by
  rw [getAt]
  exact getAtL_single c i

/-- Updating a simple matched row: the row keeps its cell paths, its label
cell is untouched, and its value cell now reads as the written string. -/
theorem updateRow_simple_spec (results : List (String × Option String))
    (a : List (String × String)) (c : List Node) (v : String)
    (hsc : simpleCellL c = true)
    (hval : newValueFor results (cellRaw (Node.elem "tr" a c) 0) = some v)
    (hcells : 2 ≤ (tdPathsN (Node.elem "tr" a c)).length) :
    cellRaw (updateTrsN results (Node.elem "tr" a c)) 0
        = cellRaw (Node.elem "tr" a c) 0
      ∧ cellRaw (updateTrsN results (Node.elem "tr" a c)) 1
        = getTextSep (Node.text v)
      ∧ tdPathsN (updateTrsN results (Node.elem "tr" a c))
        = tdPathsN (Node.elem "tr" a c) := by
  have htd0 : tdPathsN (Node.elem "tr" a c) = dIdx 0 c := by
    rw [tdPathsN]
    exact tdPathsL_simple c hsc 0
  obtain ⟨p0, p1, rest, hsplit⟩ : ∃ p0 p1 rest, dIdx 0 c = p0 :: p1 :: rest := by
    rw [htd0] at hcells
    match hd : dIdx 0 c with
    | [] => rw [hd] at hcells; simp at hcells
    | [p] => rw [hd] at hcells; simp at hcells
    | p0 :: p1 :: rest => exact ⟨p0, p1, rest, rfl⟩
  obtain ⟨i0, hp0, _, hrest⟩ := dIdx_head_lt c 0 p0 (p1 :: rest) hsplit
  obtain ⟨i1, hp1, hlt⟩ := hrest p1 (List.mem_cons_self p1 rest)
  have hp1mem : p1 ∈ dIdx 0 c := by rw [hsplit]; simp
  obtain ⟨i1', hp1', _, n1, hget1, htd1⟩ := dIdx_mem c 0 p1 hp1mem
  have hi1 : i1' = i1 := by
    rw [hp1] at hp1'
    simpa using hp1'.symm
  subst hi1
  have hget1' : c.get? i1' = some n1 := by simpa using hget1
  have hp0mem : p0 ∈ dIdx 0 c := by rw [hsplit]; simp
  obtain ⟨i0', hp0', _, n0, hget0, htd0'⟩ := dIdx_mem c 0 p0 hp0mem
  have hi0 : i0' = i0 := by
    rw [hp0] at hp0'
    simpa using hp0'.symm
  subst hi0
  have hget0' : c.get? i0' = some n0 := by simpa using hget0
  have hdec : rowDecision results (Node.elem "tr" a c) = some (p1, v) := by
    rw [rowDecision]
    have hgetp1 : (tdPathsN (Node.elem "tr" a c)).get? 1 = some p1 := by
      rw [htd0, hsplit]; rfl
    rw [hgetp1, hval]
  have htf : trFreeL c = true := simpleCellL_trFreeL c hsc
  have hupd : updateTrsN results (Node.elem "tr" a c)
      = Node.elem "tr" a (c.set i1' (clearTd v n1)) := by
    rw [updateTrsN]
    have htr : ("tr" == "tr") = true := by rfl
    rw [if_pos htr, hdec, hp1]
    show Node.elem "tr" a (updateRowChildren results i1' [] v c) = _
    rw [urc_set results v i1' c n1 htf hget1']
  have hsc' : simpleCellL (c.set i1' (clearTd v n1)) = true :=
    simpleCellL_set v c i1' n1 hsc hget1' htd1
  have htdset : dIdx 0 (c.set i1' (clearTd v n1)) = dIdx 0 c :=
    dIdx_set c 0 i1' (clearTd v n1) n1 hget1' (clearTd_isTd v n1)
  have htd1' : tdPathsN (Node.elem "tr" a (c.set i1' (clearTd v n1)))
      = tdPathsN (Node.elem "tr" a c) := by
    rw [tdPathsN, tdPathsL_simple _ hsc' 0, htdset, htd0]
  refine ⟨?_, ?_, by rw [hupd, htd1']⟩
  · rw [hupd, cellRaw, cellRaw, htd1']
    have hgetp0 : (tdPathsN (Node.elem "tr" a c)).get? 0 = some p0 := by
      rw [htd0, hsplit]; rfl
    rw [hgetp0, hp0]
    have hne : i1' ≠ i0' := by omega
    simp only [getAt_single, List.get?_eq_getElem?, List.getElem?_set_ne hne]
  · rw [hupd, cellRaw, htd1']
    have hgetp1 : (tdPathsN (Node.elem "tr" a c)).get? 1 = some p1 := by
      rw [htd0, hsplit]; rfl
    rw [hgetp1, hp1]
    have hlen : i1' < c.length := by
      by_contra hc
      rw [List.get?_eq_none.mpr (by omega)] at hget1'
      exact absurd hget1' (by simp)
    simp only [getAt_single, List.get?_eq_getElem?]
    rw [List.getElem?_set_self (by simpa using hlen)]
    cases n1 with
    | text s => simp [isTdN] at htd1
    | elem t1 a1 cc1 =>
      simp [clearTd, getTextSep, strsN, strsL]

-- ### Claim theorems

/-- C1: for every document whose first table has a (simple) row whose
first cell reads "Glicose" and whose second cell is empty, applying the
result writer with the patch `{"Glicose": "95"}` yields a document whose
re-parse by the `get_experiment_body` field parser contains a Field with
label "Glicose" and value "95". -/
theorem c1_write_propagation
    (doc : List Node) (t tr : Node)
    (hft : firstTableL doc = some t)
    (hsimple : (subTrsOf t).all isSimpleRow = true)
    (htr : tr ∈ subTrsOf t)
    (hcells : 2 ≤ (tdPathsN tr).length)
    (hlabel : cellRaw tr 0 = "Glicose")
    (hempty : cellRaw tr 1 = "") :
    ∃ f ∈ bodyFields (applyAst doc [("Glicose", some "95")]),
      f.label = "Glicose" ∧ f.value = "95" := by
  set results : List (String × Option String) := [("Glicose", some "95")]
    with hres
  have hb : bodyFields (applyAst doc results)
      = (subTrsOf (updTable results t)).filterMap rowFieldBody := by
    rw [bodyFields, applyAst, mftL_first results doc t hft]
  obtain ⟨ta, tc, hts⟩ := firstTableL_shape doc t hft
  have hsub : subTrsOf t = selfTrsL tc := by rw [hts]; rfl
  have hsubu : subTrsOf (updTable results t)
      = selfTrsL (updateTrsL results tc) := by
    rw [hts]; rfl
  have hmap : selfTrsL (updateTrsL results tc)
      = (selfTrsL tc).map (updateTrsN results) := by
    apply selfTrsL_update
    rw [← hsub]
    exact hsimple
  have hrsimple : isSimpleRow tr = true := List.all_eq_true.mp hsimple tr htr
  obtain ⟨ra, rc, hrtr, hrsc⟩ : ∃ ra rc,
      tr = Node.elem "tr" ra rc ∧ simpleCellL rc = true := by
    cases tr with
    | text s => simp [isSimpleRow] at hrsimple
    | elem rt ra rc =>
      have h2 : (rt == "tr") = true ∧ simpleCellL rc = true := by
        simpa [isSimpleRow] using hrsimple
      have hrt : rt = "tr" := by simpa using h2.1
      exact ⟨ra, rc, by rw [hrt], h2.2⟩
  subst hrtr
  have hval : newValueFor results (cellRaw (Node.elem "tr" ra rc) 0)
      = some "95" := by
    rw [hlabel]
    decide
  have hspec := updateRow_simple_spec results ra rc "95" hrsc hval hcells
  have hmem' : updateTrsN results (Node.elem "tr" ra rc)
      ∈ subTrsOf (updTable results t) := by
    rw [hsubu, hmap]
    exact List.mem_map_of_mem (updateTrsN results) (by rw [← hsub]; exact htr)
  have hrow : rowFieldBody (updateTrsN results (Node.elem "tr" ra rc))
      = some ⟨pynorm "Glicose", "Glicose",
          cleanText (cellRaw (updateTrsN results (Node.elem "tr" ra rc)) 2),
          cleanText (cellRaw (updateTrsN results (Node.elem "tr" ra rc)) 3),
          cleanText (cellRaw (updateTrsN results (Node.elem "tr" ra rc)) 4),
          "95"⟩ := by
    have hlen : ¬ ((tdPathsN (updateTrsN results (Node.elem "tr" ra rc))).length < 2) := by
      rw [hspec.2.2]
      omega
    have hparam : rowParam (updateTrsN results (Node.elem "tr" ra rc))
        = "Glicose" := by
      rw [rowParam, hspec.1, hlabel]
      decide
    have hlow : rowLow (updateTrsN results (Node.elem "tr" ra rc))
        = "glicose" := by
      rw [rowLow, hparam]
      decide
    have hvalue : cleanText (cellRaw (updateTrsN results (Node.elem "tr" ra rc)) 1)
        = "95" := by
      rw [hspec.2.1]
      decide
    rw [rowFieldBody, if_neg hlen]
    simp only [hparam, hlow, hvalue]
    rw [if_neg (by decide)]
  refine ⟨⟨pynorm "Glicose", "Glicose",
      cleanText (cellRaw (updateTrsN results (Node.elem "tr" ra rc)) 2),
      cleanText (cellRaw (updateTrsN results (Node.elem "tr" ra rc)) 3),
      cleanText (cellRaw (updateTrsN results (Node.elem "tr" ra rc)) 4),
      "95"⟩, ?_, rfl, rfl⟩
  rw [hb]
  exact List.mem_filterMap.mpr ⟨_, hmem', hrow⟩

/-- If no channel matches, the writer finds no value for the row. -/
theorem newValueFor_none (results : List (String × Option String))
    (raw : String) (h : anyChannelMatch results raw = false) :
    newValueFor results raw = none := by
  have h1 : lookupLast (results.map (fun kv => (pyStripS kv.1, kv.2))) raw
      = none := by
    cases hx : lookupLast (results.map (fun kv => (pyStripS kv.1, kv.2))) raw with
    | none => rfl
    | some v => rw [anyChannelMatch, hx] at h; simp at h
  have h2 : lookupLast (results.map (fun kv => (pynorm kv.1, kv.2))) (pynorm raw)
      = none := by
    cases hx : lookupLast (results.map (fun kv => (pynorm kv.1, kv.2))) (pynorm raw) with
    | none => rfl
    | some v => rw [anyChannelMatch, hx] at h; simp at h
  have h3 : firstCI results raw = none := by
    cases hx : firstCI results raw with
    | none => rfl
    | some v => rw [anyChannelMatch, hx] at h; simp at h
  rw [newValueFor, h1, h2, h3]

/-- A row that no channel matches gets no decision. -/
theorem rowDecision_none_of_noMatch (results : List (String × Option String))
    (tr : Node) (h : anyChannelMatch results (cellRaw tr 0) = false) :
    rowDecision results tr = none := by
  rw [rowDecision]
  cases hg : (tdPathsN tr).get? 1 with
  | none => rfl
  | some p1 =>
    rw [newValueFor_none results (cellRaw tr 0) h]

mutual
/-- With no decision on any row, the writer's row loop is the identity. -/
theorem updateTrsN_id (results : List (String × Option String)) :
    (n : Node) → (∀ tr ∈ selfTrs n, rowDecision results tr = none) →
    updateTrsN results n = n
  | .text s, _ => rfl
  | .elem t a c, h => by
    have hc : ∀ tr ∈ selfTrsL c, rowDecision results tr = none := by
      intro tr htr
      refine h tr ?_
      by_cases ht : (t == "tr") = true
      · simp [selfTrs, ht, htr]
      · simp [selfTrs, ht, htr]
    have hcl := updateTrsL_id results c hc
    by_cases ht : (t == "tr") = true
    · have hd : rowDecision results (Node.elem t a c) = none :=
        h _ (by simp [selfTrs, ht])
      rw [updateTrsN, if_pos ht, hd]
      show Node.elem t a (updateTrsL results c) = _
      rw [hcl]
    · rw [updateTrsN, if_neg ht, hcl]
/-- `updateTrsN_id` over a forest. -/
theorem updateTrsL_id (results : List (String × Option String)) :
    (l : List Node) → (∀ tr ∈ selfTrsL l, rowDecision results tr = none) →
    updateTrsL results l = l
  | [], _ => rfl
  | n :: ns, h => by
    have hn : ∀ tr ∈ selfTrs n, rowDecision results tr = none := by
      intro tr htr
      exact h tr (by simp [selfTrsL, htr])
    have hns : ∀ tr ∈ selfTrsL ns, rowDecision results tr = none := by
      intro tr htr
      exact h tr (by simp [selfTrsL, htr])
    rw [updateTrsL, updateTrsN_id results n hn, updateTrsL_id results ns hns]
end

mutual
/-- If the update leaves the first table unchanged, the traversal leaves
the whole subtree unchanged. -/
theorem mftN_id (results : List (String × Option String)) :
    (n : Node) → (t : Node) → firstTableN n = some t →
    updTable results t = t → (mftN results n).1 = n
  | .text s, t, h, _ => by simp [firstTableN] at h
  | .elem tg a c, t, h, hid => by
    by_cases ht : (tg == "table") = true
    · rw [firstTableN, if_pos ht] at h
      simp at h
      rw [mftN, if_pos ht]
      have : updTable results (Node.elem tg a c) = Node.elem tg a c := by
        rw [h]; exact hid
      simpa [updTable] using this
    · rw [firstTableN, if_neg ht] at h
      rw [mftN, if_neg ht]
      simp [mftL_id results c t h hid]
/-- `mftN_id` over the document forest. -/
theorem mftL_id (results : List (String × Option String)) :
    (l : List Node) → (t : Node) → firstTableL l = some t →
    updTable results t = t → (mftL results l).1 = l
  | [], t, h, _ => by simp [firstTableL] at h
  | n :: ns, t, h, hid => by
    cases hfn : firstTableN n with
    | some t0 =>
      rw [firstTableL, hfn] at h
      simp at h
      subst h
      have hflag : (mftN results n).2 = true := by
        rw [mftN_found results n, hfn]; rfl
      simp [mftL, hflag, mftN_id results n t0 hfn hid]
    | none =>
      rw [firstTableL, hfn] at h
      have hflag : (mftN results n).2 = false := by
        rw [mftN_found results n, hfn]; rfl
      simp [mftL, hflag, mftL_id results ns t h hid]
end

/-- C2: when no patch key matches any row of the first table under any of
the three channels, the writer returns the document unchanged, and
re-parsing it yields the same field sequence. -/
theorem c2_roundtrip_untouched
    (doc : List Node) (t : Node) (results : List (String × Option String))
    (hft : firstTableL doc = some t)
    (hnm : ∀ tr ∈ subTrsOf t, anyChannelMatch results (cellRaw tr 0) = false) :
    applyAst doc results = doc
      ∧ bodyFields (applyAst doc results) = bodyFields doc := by
  have hid : updTable results t = t := by
    obtain ⟨ta, tc, hts⟩ := firstTableL_shape doc t hft
    subst hts
    have hsub : subTrsOf (Node.elem "table" ta tc) = selfTrsL tc := rfl
    show Node.elem "table" ta (updateTrsL results tc) = Node.elem "table" ta tc
    rw [updateTrsL_id results tc]
    intro tr htr
    exact rowDecision_none_of_noMatch results tr (hnm tr (by rw [hsub]; exact htr))
  have h1 : applyAst doc results = doc := mftL_id results doc t hft hid
  exact ⟨h1, by rw [h1]⟩

/-- Witness for C1: the concrete one-row Glicose table. -/
theorem c1_write_propagation_witness :
    2 ≤ (tdPathsN demoRow).length ∧
      ∃ f ∈ bodyFields (applyAst demoDoc [("Glicose", some "95")]),
        f.label = "Glicose" ∧ f.value = "95" :=
  ⟨by decide, c1_write_propagation demoDoc demoTable demoRow rfl rfl
    (by show demoRow ∈ [demoRow]; exact List.mem_cons_self _ _)
    (by decide) (by decide) (by decide)⟩

/-- Witness for C2: a patch key matching no row leaves the concrete table
untouched. -/
theorem c2_roundtrip_untouched_witness :
    applyAst demoDoc [("Ureia", some "5")] = demoDoc
      ∧ bodyFields (applyAst demoDoc [("Ureia", some "5")])
        = bodyFields demoDoc :=
  c2_roundtrip_untouched demoDoc demoTable [("Ureia", some "5")] rfl (by decide)

/-- C7: the shared key normalizer (`_norm`, and the identical inline key
derivation of both parsers) is idempotent — and, being a pure function of
its input, deterministic. -/
theorem c7_normalize_idempotent (L : String) :
    pynorm (pynorm L) = pynorm L :=
  congrArg String.mk (pynorm_fixpoint L.data)

/-- C9: when the document holds no table, the writer discards the body
entirely and produces one `"key: value"` line per patch entry, in the
iteration order of the patch. -/
theorem c9_flat_fallback (doc : List Node)
    (results : List (String × Option String))
    (h : firstTableL doc = none) :
    applyResults doc results
      = String.intercalate "\n"
          (results.map (fun kv => kv.1 ++ ": " ++ pyStr kv.2)) := by
  have hflag : (mftL results doc).2 = false := by
    rw [mftL_found results doc, h]; rfl
  rw [applyResults, hflag]
  show flatFallback results = _
  rfl

/-- Witness for C9 at a concrete table-free body and two-entry patch (the
second entry carrying Python `None`). -/
theorem c9_flat_fallback_witness :
    applyResults [Node.text "no table"] [("a", some "1"), ("b", none)]
      = String.intercalate "\n"
          ([("a", some "1"), ("b", none)].map
            (fun kv => kv.1 ++ ": " ++ pyStr kv.2)) :=
  c9_flat_fallback [Node.text "no table"] [("a", some "1"), ("b", none)] rfl

/-- C8: totality with specified degradation: with no table both parsers
yield no fields and the writer yields the flat fallback; with a table the
writer yields either the re-serialized updated document or (only if that
serialization were empty) the flat fallback — in every case a result, never
an error. -/
theorem c8_total_degradation (doc : List Node)
    (results : List (String × Option String)) :
    (firstTableL doc = none →
      bodyFields doc = [] ∧ templateTableFields doc = []
        ∧ applyResults doc results = flatFallback results)
    ∧ (∀ t, firstTableL doc = some t →
      applyResults doc results = renderL (applyAst doc results)
        ∨ applyResults doc results = flatFallback results) := by
  constructor
  · intro h
    refine ⟨by rw [bodyFields, h], by rw [templateTableFields, h], ?_⟩
    have hflag : (mftL results doc).2 = false := by
      rw [mftL_found results doc, h]; rfl
    rw [applyResults, hflag]
    show flatFallback results = _
    rfl
  · intro t ht
    have hflag : (mftL results doc).2 = true := by
      rw [mftL_found results doc, ht]; rfl
    rw [applyResults, hflag]
    by_cases hs : renderL (mftL results doc).1 = ""
    · right
      simp only [if_pos rfl]
      show (if renderL (mftL results doc).1 = "" then flatFallback results
        else renderL (mftL results doc).1) = flatFallback results
      rw [if_pos hs]
    · left
      simp only [if_pos rfl]
      show (if renderL (mftL results doc).1 = "" then flatFallback results
        else renderL (mftL results doc).1) = renderL (applyAst doc results)
      rw [if_neg hs, applyAst]

/-- Witness for C8 at a concrete table-free body. -/
theorem c8_total_degradation_witness :
    bodyFields [Node.text "plain"] = []
      ∧ templateTableFields [Node.text "plain"] = []
      ∧ applyResults [Node.text "plain"] [("k", some "v")]
        = flatFallback [("k", some "v")] :=
  (c8_total_degradation [Node.text "plain"] [("k", some "v")]).1 rfl

/-- C3 counterexample: for the row labeled "Glicose" and the patch
`{"GLICOSE": "A", "glicose!": "B"}` there is no exact match, the
case-insensitive channel finds "A", the normalized channel finds "B" — and
the writer writes "B": the normalized channel is consulted before the
case-insensitive one, contrary to the claimed order. -/
theorem c3_counterexample :
    firstCI [("GLICOSE", some "A"), ("glicose!", some "B")] "Glicose"
        = some (some "A")
      ∧ lookupLast ([("GLICOSE", some "A"), ("glicose!", some "B")].map
          (fun kv => (pyStripS kv.1, kv.2))) "Glicose" = none
      ∧ newValueFor [("GLICOSE", some "A"), ("glicose!", some "B")] "Glicose"
        = some "B"
      ∧ bodyFields (applyAst demoDoc
          [("GLICOSE", some "A"), ("glicose!", some "B")])
        = [⟨"glicose", "Glicose", "", "", "", "B"⟩] :=
  ⟨by decide, by decide, by decide, by decide⟩

/-- C3 amended: the writer's order of preference is (a) exact match of the
row label against the stripped patch keys, then (b) normalized-key match,
and only then (c) the case-insensitive loop; whenever an earlier channel
matches, its value is the one used. -/
theorem c3_amended (results : List (String × Option String)) (raw : String) :
    (∀ v, lookupLast (results.map (fun kv => (pyStripS kv.1, kv.2))) raw
        = some v → newValueFor results raw = v)
    ∧ (lookupLast (results.map (fun kv => (pyStripS kv.1, kv.2))) raw = none →
      ∀ v, lookupLast (results.map (fun kv => (pynorm kv.1, kv.2))) (pynorm raw)
        = some v → newValueFor results raw = v)
    ∧ (lookupLast (results.map (fun kv => (pyStripS kv.1, kv.2))) raw = none →
      lookupLast (results.map (fun kv => (pynorm kv.1, kv.2))) (pynorm raw)
        = none →
      ∀ v, firstCI results raw = some v → newValueFor results raw = v) := by
  refine ⟨?_, ?_, ?_⟩
  · intro v h
    rw [newValueFor, h]
  · intro h1 v h2
    rw [newValueFor, h1, h2]
  · intro h1 h2 v h3
    rw [newValueFor, h1, h2, h3]

/-- Witness for the amended C3: the normalized channel supplies the value
when the exact channel is empty. -/
theorem c3_amended_witness :
    newValueFor [("GLICOSE", some "A"), ("glicose!", some "B")] "Glicose"
      = some "B" :=
  (c3_amended [("GLICOSE", some "A"), ("glicose!", some "B")] "Glicose").2.1
    (by decide) (some "B") (by decide)

/-- C4 counterexample: a first cell `<td><span style="color:red">x</span></td>`
does NOT yield an empty sanitized label — `get_text` extracts "x", which
contains no markup and no "style=", so the label is "x" and the row is
kept by the `get_experiment_body` parser. -/
theorem c4_counterexample :
    getTextSep (Node.elem "td" []
        [Node.elem "span" [("style", "color:red")] [Node.text "x"]]) = "x"
      ∧ cleanText "x" = "x"
      ∧ rowParam styledRow = "x"
      ∧ bodyFields styledDoc = [⟨"x", "x", "", "", "", "1"⟩] :=
  ⟨by decide, by decide, by decide, by decide⟩

/-- C4 amended: `_clean_text` inspects only the extracted cell text, not
the original markup: it substitutes the empty string exactly when the
tag-stripped trimmed text is empty or still contains an angle bracket, or
when the extracted text itself contains "style=" case-insensitively.  An
inline `style=` attribute in the cell's markup alone does not trigger the
defense. -/
theorem c4_amended (s : String) :
    cleanText s = "" ↔
      (cleanedOf s = "" ∨ (cleanedOf s).data.contains '<' = true
        ∨ (cleanedOf s).data.contains '>' = true ∨ hasStyle s = true) := by
  rw [cleanText]
  by_cases hs : s = ""
  · subst hs
    rw [if_pos rfl]
    constructor
    · intro _
      left
      decide
    · intro _
      rfl
  · rw [if_neg hs]
    by_cases hb : ((cleanedOf s).data.contains '<'
        || (cleanedOf s).data.contains '>' || hasStyle s) = true
    · show (if (cleanedOf s).data.contains '<' || (cleanedOf s).data.contains '>'
          || hasStyle s then "" else cleanedOf s) = "" ↔ _
      rw [if_pos hb]
      constructor
      · intro _
        rcases Bool.or_eq_true_iff.mp hb with h | h
        · rcases Bool.or_eq_true_iff.mp h with h' | h'
          · exact Or.inr (Or.inl h')
          · exact Or.inr (Or.inr (Or.inl h'))
        · exact Or.inr (Or.inr (Or.inr h))
      · intro _
        rfl
    · show (if (cleanedOf s).data.contains '<' || (cleanedOf s).data.contains '>'
          || hasStyle s then "" else cleanedOf s) = "" ↔ _
      rw [if_neg hb]
      have hb0 : ((cleanedOf s).data.contains '<'
          || (cleanedOf s).data.contains '>' || hasStyle s) = false := by
        simpa using hb
      have hb' : (cleanedOf s).data.contains '<' = false
          ∧ (cleanedOf s).data.contains '>' = false ∧ hasStyle s = false := by
        rcases Bool.or_eq_false_iff.mp hb0 with ⟨h12, h3⟩
        rcases Bool.or_eq_false_iff.mp h12 with ⟨h1, h2⟩
        exact ⟨h1, h2, h3⟩
      constructor
      · intro h
        exact Or.inl h
      · intro h
        rcases h with h | h | h | h
        · exact h
        · rw [hb'.1] at h; exact absurd h (by simp)
        · rw [hb'.2.1] at h; exact absurd h (by simp)
        · rw [hb'.2.2] at h; exact absurd h (by simp)

/-- Witness for the amended C4: "style=" inside the extracted text does
trigger the defense. -/
theorem c4_amended_witness : cleanText "a style= b" = "" :=
  (c4_amended "a style= b").mpr (Or.inr (Or.inr (Or.inr (by decide))))

/-- C5 counterexample: a filter-passing row with exactly two `<td>` cells
is dropped by the `get_template_for_tipo` parser (which requires three)
while the `get_experiment_body` parser keeps it, so "the parser emits a
Field for exactly those rows that contain at least two `<td>` cells" fails
for the template parser. -/
theorem c5_counterexample :
    2 ≤ (tdPathsN demoRow).length
      ∧ rowParam demoRow ≠ ""
      ∧ rowLow demoRow ∉ denylist
      ∧ templateTableFields demoDoc = []
      ∧ bodyFields demoDoc = [⟨"glicose", "Glicose", "", "", "", ""⟩] :=
  ⟨by decide, by decide, by decide, by decide, by decide⟩

/-- C5 amended: the `get_experiment_body` parser emits a Field for exactly
the rows with at least two `<td>` cells whose sanitized label is non-empty
and off the denylist; the `get_template_for_tipo` parser requires at least
three `<td>` cells and additionally a non-empty derived key. -/
theorem c5_amended (tr : Node) :
    ((rowFieldBody tr).isSome = true ↔
      (2 ≤ (tdPathsN tr).length ∧ rowParam tr ≠ "" ∧ rowLow tr ∉ denylist))
    ∧ ((rowFieldTemplate tr).isSome = true ↔
      (3 ≤ (tdPathsN tr).length ∧ rowParam tr ≠ "" ∧ rowLow tr ∉ denylist
        ∧ pynorm (rowParam tr) ≠ "")) := by
  constructor
  · rw [rowFieldBody]
    by_cases h1 : (tdPathsN tr).length < 2
    · rw [if_pos h1]
      simp only [Option.isSome_none, Bool.false_eq_true, false_iff]
      intro hc
      omega
    · rw [if_neg h1]
      by_cases h2 : rowParam tr = "" ∨ rowLow tr ∈ denylist
      · rw [if_pos h2]
        simp only [Option.isSome_none, Bool.false_eq_true, false_iff]
        intro hc
        rcases h2 with h2 | h2
        · exact hc.2.1 h2
        · exact hc.2.2 h2
      · rw [if_neg h2]
        push_neg at h2
        simp only [Option.isSome_some, true_iff]
        exact ⟨by omega, h2.1, h2.2⟩
  · rw [rowFieldTemplate]
    by_cases h1 : (tdPathsN tr).length < 3
    · rw [if_pos h1]
      simp only [Option.isSome_none, Bool.false_eq_true, false_iff]
      intro hc
      omega
    · rw [if_neg h1]
      by_cases h2 : rowParam tr = "" ∨ rowLow tr ∈ denylist
      · rw [if_pos h2]
        simp only [Option.isSome_none, Bool.false_eq_true, false_iff]
        intro hc
        rcases h2 with h2 | h2
        · exact hc.2.1 h2
        · exact hc.2.2.1 h2
      · rw [if_neg h2]
        push_neg at h2
        by_cases h3 : pynorm (rowParam tr) = ""
        · rw [if_pos h3]
          simp only [Option.isSome_none, Bool.false_eq_true, false_iff]
          intro hc
          exact hc.2.2.2 h3
        · rw [if_neg h3]
          simp only [Option.isSome_some, true_iff]
          exact ⟨by omega, h2.1, h2.2, h3⟩

/-- Witness for the amended C5 at the concrete two-cell row. -/
theorem c5_amended_witness : (rowFieldBody demoRow).isSome = true :=
  (c5_amended demoRow).1.mpr ⟨by decide, by decide, by decide⟩

/-- C6 counterexample: in the table-free body `<p>x {{dup}} {{dup}}</p>`
the token `dup` occurs twice, and the fallback emits two identical Fields,
not a single Field per distinct token. -/
theorem c6_counterexample :
    templateFields dupDoc
      = [⟨"dup", "dup", "", "", "", ""⟩, ⟨"dup", "dup", "", "", "", ""⟩]
      ∧ (templateFields dupDoc).length = 2 :=
  ⟨by decide, by decide⟩

/-- C6 amended: whenever the table path yields no fields, the template
endpoint scans the raw body for `{{...}}` tokens and emits one Field per
occurrence (duplicates included, in scan order), each with the trimmed
token as label, the key derived by the shared normalization, and empty
unit, reference, observation and value. -/
theorem c6_placeholder_fallback (doc : List Node)
    (h : templateTableFields doc = []) :
    templateFields doc
      = (findPh (renderL doc).data).map
          (fun ph => ⟨pynorm ph, pyStripS ph, "", "", "", ""⟩) := by
  rw [templateFields, h]
  show placeholderFields (renderL doc) = _
  rfl

/-- Witness for the amended C6 at the concrete duplicated-token body. -/
theorem c6_placeholder_fallback_witness :
    templateFields dupDoc
      = (findPh (renderL dupDoc).data).map
          (fun ph => ⟨pynorm ph, pyStripS ph, "", "", "", ""⟩) :=
  c6_placeholder_fallback dupDoc (by decide)

/-- C10 counterexample: the row label "Glicose" matches the None-valued
patch key "glicose!" through the normalized channel, yet the writer does
not leave the row unchanged: the exact channel finds "Glicose" -> "7" and
writes it.  A None-valued entry thus neither freezes every row it matches
nor behaves exactly like an absent entry. -/
theorem c10_counterexample :
    pynorm "glicose!" = pynorm (cellRaw demoRow 0)
      ∧ newValueFor [("glicose!", none), ("Glicose", some "7")]
          (cellRaw demoRow 0) = some "7"
      ∧ bodyFields (applyAst demoDoc [("glicose!", none), ("Glicose", some "7")])
        = [⟨"glicose", "Glicose", "", "", "", "7"⟩]
      ∧ bodyFields demoDoc = [⟨"glicose", "Glicose", "", "", "", ""⟩] :=
  ⟨by decide, by decide, by decide, by decide⟩

/-- C10 amended: the applied test is `new_value is not None`: a (simple)
row is left unchanged exactly when the three-channel selection yields
Python `None` — including when an earlier channel selects a None value and
thereby shadows later channels, so a None entry is not identical to an
absent one. -/
theorem c10_none_suppresses (results : List (String × Option String))
    (tr : Node) (hsr : isSimpleRow tr = true)
    (hnone : newValueFor results (cellRaw tr 0) = none) :
    updateTrsN results tr = tr := by
  cases tr with
  | text s => simp [isSimpleRow] at hsr
  | elem t a c =>
    have h2 : (t == "tr") = true ∧ simpleCellL c = true := by
      simpa [isSimpleRow] using hsr
    have hd : rowDecision results (Node.elem t a c) = none := by
      rw [rowDecision, hnone]
      cases hg : (tdPathsN (Node.elem t a c)).get? 1 with
      | none => rfl
      | some p1 => rfl
    rw [updateTrsN, if_pos h2.1, hd]
    show Node.elem t a (updateTrsL results c) = _
    rw [updateTrsL_trFree results c (simpleCellL_trFreeL c h2.2)]

/-- Witness for the amended C10: an exact match carrying None leaves the
concrete row untouched. -/
theorem c10_none_suppresses_witness :
    updateTrsN [("Glicose", none)] demoRow = demoRow :=
  c10_none_suppresses [("Glicose", none)] demoRow (by decide) (by decide)
